import Mathlib

/-!
Verification development for `nukeglob.py`: the Read-node extractor
(`find_node`) and the file-reference resolver (`search_files`,
`_extract_file_path`, `_handle_sequence_pattern`,
`_handle_non_sequence_pattern`, `filter_token`,
`get_first_file_in_sequence`) of the `FileSearcher` class, over an explicit
model of the filesystem interface the script calls (`os.listdir`,
`pathlib.Path.glob`, `glob.glob`).
-/

namespace Nukeglob

/-- Whitespace characters stripped by Python `str.strip()` (ASCII range). -/
def isPyWs (c : Char) : Bool :=
  c = ' ' || c = '\t' || c = '\n' || c = '\r' || c = '\x0b' || c = '\x0c'

/-- Python `str.split(sep)` for a one-character separator, keeping empty
pieces, so that `splitOnChar sep [] = [[]]` like `''.split(sep)`. -/
def splitOnChar (sep : Char) : List Char → List (List Char)
  | [] => [[]]
  | c :: rest =>
      match splitOnChar sep rest with
      | h :: t => if c = sep then [] :: h :: t else (c :: h) :: t
      | [] => [[c]]

/-- Python `str.strip()` with no argument: drop whitespace at both ends. -/
def pyStripChars (cs : List Char) : List Char :=
  ((cs.dropWhile isPyWs).reverse.dropWhile isPyWs).reverse

/-- Python `str.strip(q)` for a single character `q`: drop every leading and
trailing occurrence of `q` (not merely one pair). -/
def stripCharEnds (q : Char) (cs : List Char) : List Char :=
  ((cs.dropWhile (fun c => c = q)).reverse.dropWhile (fun c => c = q)).reverse

/-- `node['file'].strip('"')` from `search_files`. -/
def stripQuotes (s : String) : String :=
  String.mk (stripCharEnds '"' s.data)

/-- Python `needle in haystack` for strings: contiguous substring test. -/
def substrOccurs (t : List Char) : List Char → Bool
  | [] => t.isEmpty
  | c :: rest => t.isPrefixOf (c :: rest) || substrOccurs t rest

/-- Python `s.startswith(pre)`. -/
def pyStartsWith (s pre : String) : Bool := pre.data.isPrefixOf s.data

/-- Lexicographic comparison by code point, Python's string order. -/
def charsLe : List Char → List Char → Bool
  | [], _ => true
  | _ :: _, [] => false
  | a :: as, b :: bs =>
      if a.toNat < b.toNat then true
      else if b.toNat < a.toNat then false
      else charsLe as bs

def strLe (a b : String) : Bool := charsLe a.data b.data

/-- Insertion step of the sort modelling Python `sorted` on strings. -/
def insertSorted (x : String) : List String → List String
  | [] => [x]
  | y :: ys => if strLe x y then x :: y :: ys else y :: insertSorted x ys

/-- Python `sorted` on a list of strings (insertion sort; `sorted` is stable
but on strings equal elements are identical, so order agrees). -/
def sortStrs : List String → List String
  | [] => []
  | x :: xs => insertSorted x (sortStrs xs)

/-- `fnmatch`-style wildcard matching used by the glob calls: `*` matches
any run of characters, `?` a single character, anything else itself.
Bracket classes never occur in the patterns this program builds, so they
are not modelled. Fuelled to keep the recursion structural; each step
shortens pattern-plus-string, so fuel `|pat| + |s| + 1` is exact. -/
def fnmatchAux : Nat → List Char → List Char → Bool
  | 0, _, _ => false
  | _ + 1, [], cs => cs.isEmpty
  | fuel + 1, p :: ps, cs =>
      if p = '*' then
        match cs with
        | [] => fnmatchAux fuel ps []
        | c :: cs2 => fnmatchAux fuel ps (c :: cs2) || fnmatchAux fuel (p :: ps) cs2
      else
        match cs with
        | [] => false
        | c :: cs2 => (p = '?' || p = c) && fnmatchAux fuel ps cs2

def fnmatchStr (pat s : String) : Bool :=
  fnmatchAux (pat.data.length + s.data.length + 1) pat.data s.data

/-- Length matched, at the head of `cs`, by the frame-placeholder regex
`(%\d+d|#\x7b2,\x7d)` — a percent sign, one or more digits and a `d`, or a
run of two or more hash characters (matched greedily). `none` when the
regex does not match at this position. -/
def placeholderLen (cs : List Char) : Option Nat :=
  match cs with
  | [] => none
  | c :: rest =>
      if c = '%' then
        let d := (rest.takeWhile (fun x => x.isDigit)).length
        if 0 < d then
          match rest.drop d with
          | e :: _ => if e = 'd' then some (d + 2) else none
          | [] => none
        else none
      else if c = '#' then
        match rest with
        | c2 :: rest2 =>
            if c2 = '#' then some ((rest2.takeWhile (fun x => x = '#')).length + 2)
            else none
        | [] => none
      else none

/-- `re.search` of the placeholder regex: does it match anywhere? -/
def hasPlaceholderChars : List Char → Bool
  | [] => false
  | c :: rest => (placeholderLen (c :: rest)).isSome || hasPlaceholderChars rest

def hasPlaceholderStr (s : String) : Bool := hasPlaceholderChars s.data

/-- `re.sub` of the placeholder regex by `*`: leftmost nonoverlapping
matches, scanning one character forward where the regex fails. Fuelled;
every step consumes at least one character, so fuel `|cs|` is enough. -/
def subPlaceholderAux : Nat → List Char → List Char
  | 0, cs => cs
  | fuel + 1, cs =>
      match placeholderLen cs with
      | some n => '*' :: subPlaceholderAux fuel (cs.drop n)
      | none =>
          match cs with
          | [] => []
          | c :: rest => c :: subPlaceholderAux fuel rest

/-- The substitution in `get_first_file_in_sequence`. -/
def subPlaceholderStr (s : String) : String :=
  String.mk (subPlaceholderAux s.data.length s.data)

/-- Second (backtracked) alternative for a hash run of length `n` followed
by `tail` against the tail regex `.exr`: the run yields one hash back to
the dot, which is possible only when the run still has at least two
hashes, i.e. `3 ≤ n`. -/
def hashExrSecond (n : Nat) (tail : List Char) : Option Nat :=
  if 3 ≤ n then
    match tail with
    | t1 :: t2 :: t3 :: _ =>
        if t1 = 'e' ∧ t2 = 'x' ∧ t3 = 'r' then some (n + 3) else none
    | _ => none
  else none

/-- A hash run of length `n ≥ 2` followed by `tail`, matched against the
regex tail `.exr` (unescaped dot). Greedily the whole run feeds
`#\x7b2,\x7d`, the dot takes the next character; on failure the engine
backtracks one hash into the dot. Backtracking further is impossible:
the dot would have to match a hash and `e` another hash. -/
def hashExrLen (n : Nat) (tail : List Char) : Option Nat :=
  match tail with
  | _ :: c1 :: c2 :: c3 :: _ =>
      if c1 = 'e' ∧ c2 = 'x' ∧ c3 = 'r' then some (n + 4) else hashExrSecond n tail
  | _ => hashExrSecond n tail

/-- Length matched, at the head of `cs`, by the glob-derivation regex
`(%\d+d|#\x7b2,\x7d).exr` of `_handle_sequence_pattern`. The dot is not
escaped in the source, so it matches any single character before the
letters `exr`. -/
def placeholderExrLen (cs : List Char) : Option Nat :=
  match cs with
  | [] => none
  | c :: rest =>
      if c = '%' then
        let d := (rest.takeWhile (fun x => x.isDigit)).length
        if 0 < d then
          match rest.drop d with
          | e :: _ :: c1 :: c2 :: c3 :: _ =>
              if e = 'd' ∧ c1 = 'e' ∧ c2 = 'x' ∧ c3 = 'r' then some (d + 6) else none
          | _ => none
        else none
      else if c = '#' then
        match rest with
        | c2 :: rest2 =>
            if c2 = '#' then
              hashExrLen ((rest2.takeWhile (fun x => x = '#')).length + 2)
                (rest2.drop ((rest2.takeWhile (fun x => x = '#')).length))
            else none
        | [] => none
      else none

/-- `re.sub` of the glob-derivation regex by `*` (fuelled like
`subPlaceholderAux`). -/
def subPlaceholderExrAux : Nat → List Char → List Char
  | 0, cs => cs
  | fuel + 1, cs =>
      match placeholderExrLen cs with
      | some n => '*' :: subPlaceholderExrAux fuel (cs.drop n)
      | none =>
          match cs with
          | [] => []
          | c :: rest => c :: subPlaceholderExrAux fuel rest

/-- The substitution in `_handle_sequence_pattern`. -/
def subPlaceholderExrStr (s : String) : String :=
  String.mk (subPlaceholderExrAux s.data.length s.data)

/-- `pathlib.PurePosixPath(s).parts`: a leading root becomes a first
segment `/`, empty and single-dot components disappear. (The POSIX
double-slash root special case is not distinguished; the program rebuilds
the path with a single slash immediately, so the result agrees.) -/
def pyParts (s : String) : List String :=
  let segs := ((splitOnChar '/' s.data).filter
      (fun seg => seg ≠ [] && seg ≠ ['.'])).map String.mk
  if s.data.head? = some '/' then "/" :: segs else segs

/-- The normalisation `Path('/' + '/'.join(Path(path).parts[1:]))` of
`_extract_file_path`, kept as the list of path segments. -/
def normSegs (s : String) : List String := (pyParts s).drop 1

def joinSegsChars : List String → List Char
  | [] => []
  | [s] => s.data
  | s :: rest => s.data ++ '/' :: joinSegsChars rest

/-- `str(...)` of the absolute path with the given segments. -/
def segsToStr (segs : List String) : String := String.mk ('/' :: joinSegsChars segs)

/-- `str` of the normalised path of `_extract_file_path`. -/
def normStr (s : String) : String := segsToStr (normSegs s)

/-- `Path.name`: the final segment, empty for the root. -/
def nameOf (segs : List String) : String := segs.getLast?.getD ""

/-- The filesystem as the script observes it: a finite table from absolute
directory path to its list of entry names, exactly what `os.listdir`
returns. A directory absent from the table does not exist (`os.listdir`
raises `FileNotFoundError`; `glob` yields nothing there). -/
structure FS where
  dirs : List (String × List String)

/-- `os.listdir`, with `none` for the missing-directory error. -/
def listdir (fs : FS) (d : String) : Option (List String) :=
  fs.dirs.lookup d

def pathJoin (dir e : String) : String :=
  if dir = "/" then String.mk (dir.data ++ e.data)
  else String.mk (dir.data ++ '/' :: e.data)

/-- One pattern component of the `glob` module: wildcard match against an
entry name, except that a name starting with a dot is only matched by a
pattern starting with a dot (the module hides dotfiles). -/
def globComponentMatch (c e : String) : Bool :=
  (e.data.head? ≠ some '.' || c.data.head? = some '.') && fnmatchStr c e

/-- `glob.glob` expansion, walking the pattern components left to right
from the root. -/
def globWalk (fs : FS) (dir : String) : List String → List String
  | [] => [dir]
  | c :: rest =>
      (((listdir fs dir).getD []).filter (fun e => globComponentMatch c e)).flatMap
        (fun e => globWalk fs (pathJoin dir e) rest)

/-- `glob.glob` on a pattern string. The model's filesystem table is keyed
by absolute paths, so a relative pattern (the script never builds one:
resolved references always start with a slash) expands to nothing. -/
def globGlob (fs : FS) (p : String) : List String :=
  if p.data.head? = some '/' then
    globWalk fs "/" (((splitOnChar '/' p.data).filter (fun seg => seg ≠ [])).map String.mk)
  else []

/-- The literal text `node_name + " \x7b"` that starts a match of the
node regex `node_name \x7b([^\x7d]*)\x7d`. -/
def readBodyPattern (nodeName : String) : List Char :=
  nodeName.data ++ (" \x7b").data

/-- Scanner for `re.findall(node_name + body regex, text, re.DOTALL)`:
leftmost nonoverlapping matches; a candidate start without a later closing
brace fails and scanning resumes one character on. Fuelled; every step
consumes at least one character. -/
def findBodiesAux (pat : List Char) : Nat → List Char → List (List Char)
  | 0, _ => []
  | _ + 1, [] => []
  | fuel + 1, c :: rest =>
      if pat.isPrefixOf (c :: rest) then
        match ((c :: rest).drop pat.length).dropWhile (fun x => x ≠ '\x7d') with
        | _ :: rem2 =>
            ((c :: rest).drop pat.length).takeWhile (fun x => x ≠ '\x7d') ::
              findBodiesAux pat fuel rem2
        | [] => findBodiesAux pat fuel rest
      else findBodiesAux pat fuel rest

/-- The bodies captured by the node regex, in source order. -/
def findBodies (nodeName text : String) : List (List Char) :=
  findBodiesAux (readBodyPattern nodeName) text.data.length text.data

/-- Python dict assignment `node[key] = value`: overwrite in place on an
existing key (keeping its position), append otherwise. -/
def dictInsert (d : List (String × String)) (k v : String) : List (String × String) :=
  if d.any (fun p => p.1 = k) then
    d.map (fun p => if p.1 = k then (k, v) else p)
  else d ++ [(k, v)]

/-- Python dict lookup (`node['file']`, `'file' in node`). -/
def dictGet (d : List (String × String)) (k : String) : Option String :=
  (d.find? (fun p => p.1 = k)).map (fun p => p.2)

/-- `prop.strip().split(' ', 1)` unpacked into two names: split at the
first space character; `none` models the `ValueError` raised when the
stripped line contains no space at all. -/
def splitOnce (s : List Char) : Option (List Char × List Char) :=
  match s.dropWhile (fun c => c ≠ ' ') with
  | _ :: v => some (s.takeWhile (fun c => c ≠ ' '), v)
  | [] => none

/-- One iteration of the property loop inside `find_node`. -/
def parseProp (node : List (String × String)) (prop : List Char) :
    Option (List (String × String)) :=
  let s := pyStripChars prop
  if s = [] then some node
  else
    match splitOnce s with
    | some kv => some (dictInsert node (String.mk kv.1) (String.mk kv.2))
    | none => none

/-- Key/value parsing of one node body: split on newlines, skip blank
lines, split each remaining line once; `none` models the uncaught
`ValueError` on a malformed line. -/
def parseBody (body : List Char) : Option (List (String × String)) :=
  (splitOnChar '\n' body).foldlM parseProp []

/-- `find_node(text, node_name)`: one record per regex match, in source
order; `none` when any body has a malformed line. -/
def find_node (text nodeName : String) : Option (List (List (String × String))) :=
  (findBodies nodeName text).mapM parseBody

/-- `_handle_sequence_pattern(path)` over the path's segments. -/
def handle_sequence_pattern (fs : FS) (segs : List String) : String × String :=
  let directory := segsToStr segs.dropLast
  let file_name := subPlaceholderExrStr (nameOf segs)
  let matching_files :=
    sortStrs (((listdir fs directory).getD []).filter (fun e => fnmatchStr file_name e))
  if matching_files ≠ [] then (segsToStr segs, "") else ("", segsToStr segs)

/-- `_handle_non_sequence_pattern(path)` over the path's segments:
`os.listdir` with the `FileNotFoundError` handler. -/
def handle_non_sequence_pattern (fs : FS) (segs : List String) : String × String :=
  match listdir fs (segsToStr segs.dropLast) with
  | none => ("", segsToStr segs)
  | some files =>
      if nameOf segs ∈ files then (segsToStr segs, "") else ("", segsToStr segs)

/-- `_extract_file_path(path)`: normalise, then dispatch on the
placeholder regex searched in the normalised string. -/
def extract_file_path (fs : FS) (path : String) : String × String :=
  let segs := normSegs path
  if hasPlaceholderStr (segsToStr segs) then handle_sequence_pattern fs segs
  else handle_non_sequence_pattern fs segs

/-- The expression-join marker `\[join` tested by `search_files`. -/
def joinMarker : String := "\\[join"

/-- The body of the per-node loop in `search_files`: what one extracted
record contributes to the found and not-found lists. -/
def nodeContribution (fs : FS) (node : List (String × String)) :
    List String × List String :=
  match dictGet node "file" with
  | none => ([], [])
  | some raw =>
      let file_path := stripQuotes raw
      if pyStartsWith file_path joinMarker then ([], [])
      else
        let r := extract_file_path fs file_path
        ((if r.1 = "" then [] else [r.1]), (if r.2 = "" then [] else [r.2]))

/-- The accumulation loop of `search_files` over the extracted records. -/
def search_files_nodes (fs : FS) :
    List (List (String × String)) → List String × List String
  | [] => ([], [])
  | n :: ns =>
      let c := nodeContribution fs n
      let r := search_files_nodes fs ns
      (c.1 ++ r.1, c.2 ++ r.2)

/-- `search_files(text)`; `none` propagates the extractor's parse error. -/
def search_files (fs : FS) (text : String) : Option (List String × List String) :=
  (find_node text "Read").map (search_files_nodes fs)

/-- `self.contain.split('/')`. -/
def tokensOf (c : String) : List String :=
  (splitOnChar '/' c.data).map String.mk

/-- `filter_token(found, not_found)`, with `self.contain` an optional
string; Python's truthiness test skips filtering for `None` and for the
empty string. -/
def filter_token (contain : Option String) (found notFound : List String) :
    List String × List String :=
  match contain with
  | none => (found, notFound)
  | some c =>
      if c = "" then (found, notFound)
      else
        (found.filter (fun p => (tokensOf c).all (fun t => substrOccurs t.data p.data)),
         notFound.filter (fun p => (tokensOf c).all (fun t => substrOccurs t.data p.data)))

/-- `get_first_file_in_sequence(path)`. Note the source rebinds `path` to
the wildcard-substituted pattern before globbing, and the final `return
path` returns that rebound value when the glob found nothing. -/
def get_first_file_in_sequence (fs : FS) (path : String) : String :=
  if path.data.contains '%' || path.data.contains '#' then
    match sortStrs (globGlob fs (subPlaceholderStr path)) with
    | f :: _ => f
    | [] => subPlaceholderStr path
  else path

/-- Modelled from the spec's words for comparison with `splitOnce`: split a
node-body line at its first whitespace run, the value being everything
after the run. -/
def splitFirstWsRun (s : List Char) : Option (List Char × List Char) :=
  if s.dropWhile (fun c => !isPyWs c) = [] then none
  else some (s.takeWhile (fun c => !isPyWs c),
             (s.dropWhile (fun c => !isPyWs c)).dropWhile isPyWs)

/-- Modelled from the spec's words for comparison with `stripQuotes`:
remove a single pair of enclosing quote characters if present. -/
def stripOnePair (s : String) : String :=
  match s.data with
  | c :: rest =>
      if c = '"' ∧ rest.getLast? = some '"' then String.mk rest.dropLast else s
  | [] => s

/-- Modelled from the spec's words for comparison with
`placeholderExrLen`: the placeholder followed by the literal four
characters `.exr`. -/
def placeholderLitExrLen (cs : List Char) : Option Nat :=
  match placeholderLen cs with
  | some n =>
      match cs.drop n with
      | '.' :: 'e' :: 'x' :: 'r' :: _ => some (n + 4)
      | _ => none
  | none => none

/-- `re.sub` of the spec-worded literal variant by `*` (fuelled). -/
def subPlaceholderLitExrAux : Nat → List Char → List Char
  | 0, cs => cs
  | fuel + 1, cs =>
      match placeholderLitExrLen cs with
      | some n => '*' :: subPlaceholderLitExrAux fuel (cs.drop n)
      | none =>
          match cs with
          | [] => []
          | c :: rest => c :: subPlaceholderLitExrAux fuel rest

def subPlaceholderLitExrStr (s : String) : String :=
  String.mk (subPlaceholderLitExrAux s.data.length s.data)

/-- Modelled from the spec's words for comparison with
`handle_sequence_pattern`: the sequence branch as the claim states it,
deriving the glob with the literal `.exr` substitution. -/
def claimSeqResolve (fs : FS) (segs : List String) : String × String :=
  let directory := segsToStr segs.dropLast
  let file_name := subPlaceholderLitExrStr (nameOf segs)
  let matching_files :=
    sortStrs (((listdir fs directory).getD []).filter (fun e => fnmatchStr file_name e))
  if matching_files ≠ [] then (segsToStr segs, "") else ("", segsToStr segs)

/-- Generator for well-formed documents: separator text, then a
`Read \x7b` opener, a body, and the closing brace, repeated; used to state
the extraction claim. -/
def buildDoc : List (List Char × List Char) → List Char → List Char
  | [], tail => tail
  | (sep, body) :: rest, tail =>
      sep ++ readBodyPattern "Read" ++ body ++ '\x7d' :: buildDoc rest tail

/-! ### Helper lemmas -/

theorem length_dropWhile_le (p : Char → Bool) (l : List Char) :
    (l.dropWhile p).length ≤ l.length := by
  induction l with
  | nil => simp
  | cons c rest ih =>
      rw [List.dropWhile_cons]
      split
      · exact Nat.le_trans ih (Nat.le_succ _)
      · exact Nat.le_refl _

theorem dropWhile_eq_nil_of_all {p : Char → Bool} :
    ∀ l : List Char, (∀ c ∈ l, p c = true) → l.dropWhile p = [] := by
  intro l h
  induction l with
  | nil => rfl
  | cons c rest ih =>
      rw [List.dropWhile_cons, if_pos (h c (by simp))]
      exact ih (fun x hx => h x (by simp [hx]))

theorem dropWhile_append_stop {p : Char → Bool} :
    ∀ (xs : List Char) {y : Char} (ys : List Char), (∀ c ∈ xs, p c = true) →
      p y = false → (xs ++ y :: ys).dropWhile p = y :: ys := by
  intro xs
  induction xs with
  | nil => intro y ys _ hy; simpa [List.dropWhile_cons] using by simp [hy]
  | cons c rest ih =>
      intro y ys hall hy
      rw [List.cons_append, List.dropWhile_cons, if_pos (hall c (by simp))]
      exact ih ys (fun x hx => hall x (by simp [hx])) hy

theorem takeWhile_append_stop {p : Char → Bool} :
    ∀ (xs : List Char) {y : Char} (ys : List Char), (∀ c ∈ xs, p c = true) →
      p y = false → (xs ++ y :: ys).takeWhile p = xs := by
  intro xs
  induction xs with
  | nil =>
      intro y ys _ hy
      simp [List.takeWhile_cons, hy]
  | cons c rest ih =>
      intro y ys hall hy
      rw [List.cons_append, List.takeWhile_cons, if_pos (hall c (by simp))]
      exact congrArg (c :: ·) (ih ys (fun x hx => hall x (by simp [hx])) hy)

theorem head_dropWhile_false {p : Char → Bool} :
    ∀ {l : List Char} {c : Char}, (l.dropWhile p).head? = some c → p c = false := by
  intro l
  induction l with
  | nil => intro c h; simp at h
  | cons x xs ih =>
      intro c h
      rw [List.dropWhile_cons] at h
      by_cases hx : p x = true
      · exact ih (by simpa [hx] using h)
      · rw [if_neg (by simp [hx])] at h
        simp at h
        subst h
        simpa using hx

theorem dropWhile_eq_self_of_head {p : Char → Bool} {l : List Char}
    (h : ∀ c, l.head? = some c → p c = false) : l.dropWhile p = l := by
  cases l with
  | nil => rfl
  | cons c rest => simp [List.dropWhile_cons, h c rfl]

theorem segsToStr_ne_empty (segs : List String) : segsToStr segs ≠ "" := by
  intro h
  have h2 := congrArg String.data h
  simp [segsToStr] at h2

theorem extract_shape (fs : FS) (p : String) :
    extract_file_path fs p = (normStr p, "") ∨
      extract_file_path fs p = ("", normStr p) := by
  simp only [extract_file_path, normStr, handle_sequence_pattern,
    handle_non_sequence_pattern]
  split
  · split
    · exact Or.inl rfl
    · exact Or.inr rfl
  · split
    · exact Or.inr rfl
    · split
      · exact Or.inl rfl
      · exact Or.inr rfl

theorem contribution_erase {fs : FS} {node : List (String × String)}
    (h : nodeContribution fs node = ([], [])) :
    ∀ pre post, search_files_nodes fs (pre ++ node :: post) =
      search_files_nodes fs (pre ++ post) := by
  intro pre post
  induction pre with
  | nil => simp [search_files_nodes, h]
  | cons n ns ih => simp [search_files_nodes, ih]

theorem charsLe_refl : ∀ a, charsLe a a = true := by
  intro a
  induction a with
  | nil => rfl
  | cons c rest ih => simp [charsLe, ih]

theorem charsLe_total : ∀ a b, charsLe a b = true ∨ charsLe b a = true := by
  intro a
  induction a with
  | nil => intro b; exact Or.inl rfl
  | cons c rest ih =>
      intro b
      cases b with
      | nil => exact Or.inr rfl
      | cons d bs =>
          by_cases h1 : c.toNat < d.toNat
          · exact Or.inl (by simp [charsLe, h1])
          · by_cases h2 : d.toNat < c.toNat
            · exact Or.inr (by simp [charsLe, h2])
            · rcases ih bs with h | h
              · exact Or.inl (by simp [charsLe, h1, h2, h])
              · exact Or.inr (by simp [charsLe, h1, h2, h])

theorem charsLe_trans : ∀ a b c, charsLe a b = true → charsLe b c = true →
    charsLe a c = true := by
  intro a
  induction a with
  | nil => intro b c _ _; rfl
  | cons x xs ih =>
      intro b c hab hbc
      cases b with
      | nil => simp [charsLe] at hab
      | cons y ys =>
          cases c with
          | nil => simp [charsLe] at hbc
          | cons z zs =>
              simp only [charsLe] at hab hbc ⊢
              split
              · rfl
              · split
                · rename_i hxz hzx
                  exfalso
                  split at hab
                  · split at hbc
                    · omega
                    · split at hbc
                      · exact Bool.noConfusion hbc
                      · omega
                  · split at hab
                    · exact Bool.noConfusion hab
                    · split at hbc
                      · omega
                      · split at hbc
                        · exact Bool.noConfusion hbc
                        · omega
                · rename_i hxz hzx
                  split at hab
                  · rename_i hxy
                    exfalso
                    split at hbc
                    · omega
                    · split at hbc
                      · exact Bool.noConfusion hbc
                      · omega
                  · split at hab
                    · exact Bool.noConfusion hab
                    · rename_i hxy hyx
                      split at hbc
                      · omega
                      · split at hbc
                        · exact Bool.noConfusion hbc
                        · exact ih ys zs hab hbc

theorem strLe_refl (a : String) : strLe a a = true := charsLe_refl _

theorem strLe_total (a b : String) : strLe a b = true ∨ strLe b a = true :=
  charsLe_total _ _

theorem strLe_trans {a b c : String} (h1 : strLe a b = true)
    (h2 : strLe b c = true) : strLe a c = true :=
  charsLe_trans _ _ _ h1 h2

theorem mem_insertSorted {x y : String} : ∀ {l : List String},
    y ∈ insertSorted x l ↔ y = x ∨ y ∈ l := by
  intro l
  induction l with
  | nil => simp [insertSorted]
  | cons z zs ih =>
      simp only [insertSorted]
      split
      · simp [or_comm, or_assoc, or_left_comm]
      · simp [ih]
        tauto

theorem mem_sortStrs {y : String} : ∀ {l : List String},
    y ∈ sortStrs l ↔ y ∈ l := by
  intro l
  induction l with
  | nil => simp [sortStrs]
  | cons x xs ih => simp [sortStrs, mem_insertSorted, ih]

theorem sortStrs_eq_nil_iff : ∀ {l : List String}, sortStrs l = [] ↔ l = [] := by
  intro l
  cases l with
  | nil => simp [sortStrs]
  | cons x xs =>
      simp only [sortStrs]
      constructor
      · intro h
        exfalso
        have : x ∈ insertSorted x (sortStrs xs) := mem_insertSorted.mpr (Or.inl rfl)
        rw [h] at this
        simp at this
      · intro h
        exact List.noConfusion h

theorem insertSorted_pairwise {x : String} : ∀ {l : List String},
    l.Pairwise (fun a b => strLe a b = true) →
      (insertSorted x l).Pairwise (fun a b => strLe a b = true) := by
  intro l
  induction l with
  | nil => intro _; simp [insertSorted]
  | cons y ys ih =>
      intro h
      rw [List.pairwise_cons] at h
      simp only [insertSorted]
      split
      · rename_i hxy
        rw [List.pairwise_cons]
        constructor
        · intro a ha
          simp at ha
          rcases ha with rfl | ha
          · exact hxy
          · exact strLe_trans hxy (h.1 a ha)
        · exact List.pairwise_cons.mpr h
      · rename_i hxy
        rw [List.pairwise_cons]
        constructor
        · intro a ha
          rw [mem_insertSorted] at ha
          rcases ha with rfl | ha
          · rcases strLe_total a y with h' | h'
            · exact absurd h' hxy
            · exact h'
          · exact h.1 a ha
        · exact ih h.2

theorem sortStrs_pairwise : ∀ (l : List String),
    (sortStrs l).Pairwise (fun a b => strLe a b = true) := by
  intro l
  induction l with
  | nil => simp [sortStrs]
  | cons x xs ih => exact insertSorted_pairwise ih

theorem sortStrs_head_le {l : List String} {x : String} {t : List String}
    (h : sortStrs l = x :: t) : ∀ y ∈ l, strLe x y = true := by
  intro y hy
  have hy2 : y ∈ sortStrs l := mem_sortStrs.mpr hy
  rw [h] at hy2
  rcases List.mem_cons.mp hy2 with rfl | hy3
  · exact strLe_refl y
  · have hp := sortStrs_pairwise l
    rw [h, List.pairwise_cons] at hp
    exact hp.1 y hy3

theorem placeholderLen_head {cs : List Char} {n : Nat}
    (h : placeholderLen cs = some n) :
    ∃ c rest, cs = c :: rest ∧ (c = '%' ∨ c = '#') := by
  cases cs with
  | nil => simp [placeholderLen] at h
  | cons c rest =>
      refine ⟨c, rest, rfl, ?_⟩
      by_cases h1 : c = '%'
      · exact Or.inl h1
      · by_cases h2 : c = '#'
        · exact Or.inr h2
        · simp [placeholderLen, h1, h2] at h

theorem hasPlaceholder_mem {cs : List Char} (h : hasPlaceholderChars cs = true) :
    '%' ∈ cs ∨ '#' ∈ cs := by
  induction cs with
  | nil => simp [hasPlaceholderChars] at h
  | cons c rest ih =>
      rw [hasPlaceholderChars, Bool.or_eq_true] at h
      rcases h with h | h
      · rw [Option.isSome_iff_exists] at h
        obtain ⟨n, hn⟩ := h
        obtain ⟨c', rest', heq, hc⟩ := placeholderLen_head hn
        obtain ⟨rfl, rfl⟩ : c' = c ∧ rest' = rest := by
          constructor <;> [exact (List.cons.injEq _ _ _ _ ▸ heq).1.symm;
            exact (List.cons.injEq _ _ _ _ ▸ heq).2.symm]
        rcases hc with rfl | rfl
        · exact Or.inl (by simp)
        · exact Or.inr (by simp)
      · rcases ih h with h' | h'
        · exact Or.inl (by simp [h'])
        · exact Or.inr (by simp [h'])

theorem gate_of_hasPlaceholder {p : String} (h : hasPlaceholderStr p = true) :
    (p.data.contains '%' || p.data.contains '#') = true := by
  rcases hasPlaceholder_mem h with h' | h'
  · simp [List.contains, List.elem_iff, h']
  · simp [List.contains, List.elem_iff, h']

theorem findBodiesAux_fuel {pat : List Char} :
    ∀ f1 f2 cs, cs.length ≤ f1 → cs.length ≤ f2 →
      findBodiesAux pat f1 cs = findBodiesAux pat f2 cs := by
  intro f1
  induction f1 with
  | zero =>
      intro f2 cs h1 _
      have : cs = [] := List.length_eq_zero.mp (Nat.le_zero.mp h1)
      subst this
      cases f2 <;> rfl
  | succ n ih =>
      intro f2 cs h1 h2
      cases cs with
      | nil => cases f2 <;> rfl
      | cons c rest =>
          cases f2 with
          | zero => simp at h2
          | succ m =>
              simp only [findBodiesAux]
              split
              · rename_i hpre
                split
                · rename_i x rem2 heq
                  have hlen : rem2.length ≤ rest.length := by
                    have h3 := congrArg List.length heq
                    rw [List.length_cons] at h3
                    have h4 := length_dropWhile_le (fun x => decide (x ≠ '\x7d'))
                      ((c :: rest).drop pat.length)
                    rw [h3] at h4
                    have h5 : ((c :: rest).drop pat.length).length ≤ rest.length + 1 := by
                      rw [List.length_drop]
                      simp
                    omega
                  rw [ih m rem2 (by simp at h1; omega) (by simp at h2; omega)]
                · exact ih m rest (by simp at h1; omega) (by simp at h2; omega)
              · exact ih m rest (by simp at h1; omega) (by simp at h2; omega)

theorem findBodiesAux_no_head {p0 : Char} {pt : List Char} :
    ∀ f (cs : List Char), p0 ∉ cs → findBodiesAux (p0 :: pt) f cs = [] := by
  intro f
  induction f with
  | zero => intro cs _; rfl
  | succ n ih =>
      intro cs h
      cases cs with
      | nil => rfl
      | cons c rest =>
          have hc : ¬ (p0 = c) := fun he => h (he ▸ List.mem_cons_self c rest)
          have hb : (p0 == c) = false := beq_eq_false_iff_ne.mpr hc
          have hpre : (p0 :: pt).isPrefixOf (c :: rest) = false := by
            simp only [List.isPrefixOf, hb, Bool.false_and]
          simp only [findBodiesAux, hpre, Bool.false_eq_true, if_false]
          exact ih rest (fun hm => h (List.mem_cons_of_mem c hm))

theorem findBodiesAux_build {p0 : Char} {pt : List Char} :
    ∀ (sep body rest : List Char) (f : Nat),
      p0 ∉ sep → '\x7d' ∉ body →
      (sep ++ (p0 :: pt) ++ body ++ '\x7d' :: rest).length ≤ f →
      findBodiesAux (p0 :: pt) f (sep ++ (p0 :: pt) ++ body ++ '\x7d' :: rest) =
        body :: findBodiesAux (p0 :: pt) rest.length rest := by
  intro sep
  induction sep with
  | nil =>
      intro body rest f _ hbody hf
      simp only [List.nil_append, List.cons_append] at hf ⊢
      cases f with
      | zero => simp at hf
      | succ n =>
          simp only [findBodiesAux]
          rw [if_pos]
          · have hdrop : List.drop (p0 :: pt).length
                (p0 :: (pt ++ body ++ '\x7d' :: rest)) = body ++ '\x7d' :: rest := by
              simp only [List.length_cons, List.drop_succ_cons, List.append_assoc]
              exact List.drop_left pt _
            rw [hdrop]
            rw [dropWhile_append_stop body rest
                (fun c hc => by
                  simp only [decide_eq_true_eq]
                  intro he
                  exact hbody (he ▸ hc))
                (by simp)]
            show List.takeWhile (fun x => decide (x ≠ '\x7d')) (body ++ '\x7d' :: rest) ::
                findBodiesAux (p0 :: pt) n rest =
              body :: findBodiesAux (p0 :: pt) rest.length rest
            rw [takeWhile_append_stop body rest
                (fun c hc => by
                  simp only [decide_eq_true_eq]
                  intro he
                  exact hbody (he ▸ hc))
                (by simp)]
            have hr : rest.length ≤ n := by
              simp at hf
              omega
            rw [findBodiesAux_fuel n rest.length rest hr (Nat.le_refl _)]
          · rw [List.isPrefixOf_iff_prefix]
            exact ⟨body ++ '\x7d' :: rest, by simp⟩
  | cons s sep' ih =>
      intro body rest f hsep hbody hf
      have hs : ¬ (p0 = s) := fun he => hsep (he ▸ List.mem_cons_self s sep')
      have hb : (p0 == s) = false := beq_eq_false_iff_ne.mpr hs
      simp only [List.cons_append] at hf ⊢
      cases f with
      | zero => simp at hf
      | succ n =>
          simp only [findBodiesAux]
          rw [if_neg]
          · have := ih body rest n (fun hm => hsep (List.mem_cons_of_mem s hm))
              hbody (by simp at hf ⊢; omega)
            simpa using this
          · simp only [List.isPrefixOf, hb, Bool.false_and]
            simp

theorem mapM_map_comp {α β : Type} (g : α → List Char)
    (f : List Char → Option β) :
    ∀ l : List α, (l.map g).mapM f = l.mapM (fun x => f (g x)) := by
  intro l
  induction l with
  | nil => rw [List.map_nil]; rfl
  | cons x xs ih => rw [List.map_cons, List.mapM_cons, List.mapM_cons, ih]

theorem mapM_eq_none_of_mem {β : Type} {f : List Char → Option β}
    {b : List Char} (hfb : f b = none) :
    ∀ {bs : List (List Char)}, b ∈ bs → bs.mapM f = none := by
  intro bs hmem
  induction bs with
  | nil => simp at hmem
  | cons x xs ih =>
      rw [List.mapM_cons]
      rcases List.mem_cons.mp hmem with rfl | hmem'
      · rw [hfb]
        rfl
      · cases hx : f x with
        | none => rfl
        | some y =>
            have := ih hmem'
            rw [this]
            rfl

theorem foldlM_parseProp_none {l : List Char}
    (h1 : pyStripChars l ≠ []) (h2 : ' ' ∉ pyStripChars l) :
    ∀ (props : List (List Char)) (init : List (String × String)),
      l ∈ props → props.foldlM parseProp init = none := by
  have hbad : ∀ init, parseProp init l = none := by
    intro init
    have hdrop : (pyStripChars l).dropWhile (fun c => c ≠ ' ') = [] :=
      dropWhile_eq_nil_of_all _ (fun c hc => by
        simp only [decide_eq_true_eq]
        intro he
        exact h2 (he ▸ hc))
    simp only [parseProp, splitOnce, hdrop, if_neg h1]
  intro props
  induction props with
  | nil => intro init h; simp at h
  | cons x xs ih =>
      intro init hmem
      rw [List.foldlM_cons]
      rcases List.mem_cons.mp hmem with rfl | hmem'
      · rw [hbad init]
        rfl
      · cases hx : parseProp init x with
        | none => rfl
        | some node => simpa using ih node hmem'

theorem dictGet_dictInsert : ∀ (d : List (String × String)) (k v : String),
    dictGet (dictInsert d k v) k = some v := by
  intro d k v
  by_cases hany : d.any (fun p => p.1 = k) = true
  · rw [dictInsert, if_pos hany]
    induction d with
    | nil => simp at hany
    | cons p d' ih =>
        rw [List.any_cons, Bool.or_eq_true] at hany
        by_cases hp : p.1 = k
        · simp [dictGet, List.find?, hp]
        · have h2 : d'.any (fun p => p.1 = k) = true := by
            rcases hany with h | h
            · simp [hp] at h
            · exact h
          have hd : (decide (p.1 = k)) = false := decide_eq_false hp
          simp only [List.map_cons]
          rw [if_neg hp]
          simp only [dictGet, List.find?, hd]
          exact ih h2
  · rw [dictInsert, if_neg hany]
    have hnone : d.find? (fun p => p.1 = k) = none := by
      rw [List.find?_eq_none]
      intro x hx
      simp only [Bool.not_eq_true, decide_eq_false_iff_not]
      intro he
      exact hany (List.any_eq_true.mpr ⟨x, hx, by simp [he]⟩)
    simp [dictGet, List.find?_append, hnone, List.find?]

theorem takeWhile_eq_q_replicate (q : Char) (l : List Char) :
    l.takeWhile (fun c => c = q) =
      List.replicate (l.takeWhile (fun c => c = q)).length q :=
  List.eq_replicate_iff.mpr ⟨rfl, fun b hb => by
    have := List.mem_takeWhile_imp hb
    simpa using this⟩

theorem stripCharEnds_append_replicate (q : Char) (cs : List Char) :
    stripCharEnds q cs ++
        List.replicate
          ((cs.dropWhile (fun c => c = q)).reverse.takeWhile (fun c => c = q)).length q =
      cs.dropWhile (fun c => c = q) := by
  rw [stripCharEnds]
  rw [← List.reverse_replicate
    ((cs.dropWhile (fun c => c = q)).reverse.takeWhile (fun c => c = q)).length q]
  rw [← takeWhile_eq_q_replicate q (cs.dropWhile (fun c => c = q)).reverse]
  rw [← List.reverse_append, List.takeWhile_append_dropWhile, List.reverse_reverse]

theorem stripCharEnds_decomp (q : Char) (cs : List Char) :
    ∃ a b, cs = List.replicate a q ++ stripCharEnds q cs ++ List.replicate b q := by
  refine ⟨(cs.takeWhile (fun c => c = q)).length,
    ((cs.dropWhile (fun c => c = q)).reverse.takeWhile (fun c => c = q)).length, ?_⟩
  conv_lhs => rw [← List.takeWhile_append_dropWhile (fun c => decide (c = q)) cs]
  conv_rhs => rw [List.append_assoc, stripCharEnds_append_replicate q cs,
    ← takeWhile_eq_q_replicate q cs]

theorem stripCharEnds_head {q : Char} {cs : List Char} {c : Char}
    (h : (stripCharEnds q cs).head? = some c) : c ≠ q := by
  have h2 := stripCharEnds_append_replicate q cs
  have h3 : (cs.dropWhile (fun c => decide (c = q))).head? = some c := by
    rw [← h2, List.head?_append, h]
    rfl
  simpa using head_dropWhile_false h3

theorem stripCharEnds_getLast {q : Char} {cs : List Char} {c : Char}
    (h : (stripCharEnds q cs).getLast? = some c) : c ≠ q := by
  rw [stripCharEnds, List.getLast?_reverse] at h
  simpa using head_dropWhile_false h

theorem stripCharEnds_idem (q : Char) (cs : List Char) :
    stripCharEnds q (stripCharEnds q cs) = stripCharEnds q cs := by
  conv_lhs => rw [stripCharEnds]
  rw [dropWhile_eq_self_of_head
    (fun c hc => decide_eq_false (stripCharEnds_head hc))]
  rw [dropWhile_eq_self_of_head
    (fun c hc => by
      rw [List.head?_reverse] at hc
      exact decide_eq_false (stripCharEnds_getLast hc))]
  rw [List.reverse_reverse]

theorem substrOccurs_nil : ∀ l : List Char, substrOccurs [] l = true := by
  intro l
  cases l with
  | nil => rfl
  | cons c rest => simp [substrOccurs, List.isPrefixOf]

theorem sortStrs_ne_nil_of_mem {x : String} {l : List String} (h : x ∈ l) :
    sortStrs l ≠ [] := fun hnil =>
  List.not_mem_nil x (hnil ▸ mem_sortStrs.mpr h)

theorem readBodyPattern_Read :
    readBodyPattern "Read" = 'R' :: ('e' :: 'a' :: 'd' :: ' ' :: '\x7b' :: []) := rfl

theorem findBodiesAux_buildDoc :
    ∀ (pieces : List (List Char × List Char)) (tail : List Char),
      (∀ pb ∈ pieces, 'R' ∉ pb.1) → (∀ pb ∈ pieces, '\x7d' ∉ pb.2) → 'R' ∉ tail →
      findBodiesAux (readBodyPattern "Read") (buildDoc pieces tail).length
          (buildDoc pieces tail) =
        pieces.map (fun pb => pb.2) := by
  intro pieces
  induction pieces with
  | nil =>
      intro tail _ _ htail
      rw [readBodyPattern_Read, buildDoc, List.map_nil]
      exact findBodiesAux_no_head _ tail htail
  | cons pb rest ih =>
      intro tail hsep hbody htail
      obtain ⟨sep, body⟩ := pb
      rw [buildDoc, List.map_cons]
      rw [readBodyPattern_Read]
      rw [findBodiesAux_build sep body (buildDoc rest tail) _
        (hsep (sep, body) (by simp)) (hbody (sep, body) (by simp)) (Nat.le_refl _)]
      have := ih tail (fun x hx => hsep x (by simp [hx])) (fun x hx => hbody x (by simp [hx]))
        htail
      rw [readBodyPattern_Read] at this
      rw [this]

theorem extract_file_path_eq (fs : FS) (p : String) :
    extract_file_path fs p =
      if hasPlaceholderStr (segsToStr (normSegs p)) = true then
        handle_sequence_pattern fs (normSegs p)
      else handle_non_sequence_pattern fs (normSegs p) := rfl

theorem handle_sequence_pattern_eq (fs : FS) (segs : List String) :
    handle_sequence_pattern fs segs =
      if sortStrs (((listdir fs (segsToStr segs.dropLast)).getD []).filter
          (fun e => fnmatchStr (subPlaceholderExrStr (nameOf segs)) e)) ≠ [] then
        (segsToStr segs, "")
      else ("", segsToStr segs) := rfl

theorem get_first_file_in_sequence_eq (fs : FS) (p : String) :
    get_first_file_in_sequence fs p =
      if (p.data.contains '%' || p.data.contains '#') = true then
        match sortStrs (globGlob fs (subPlaceholderStr p)) with
        | f :: _ => f
        | [] => subPlaceholderStr p
      else p := rfl

/-! ### Claim theorems -/

/-- C1: for every `file` reference taken from a Read-node record that is
not skipped by the expression-join rule, the resolver populates exactly one
of (found, not_found) with the normalized path string and leaves the other
empty — never both, never neither. -/
theorem c1_exactly_one_populated (fs : FS) (node : List (String × String))
    (raw : String) (h1 : dictGet node "file" = some raw)
    (h2 : pyStartsWith (stripQuotes raw) joinMarker = false) :
    (nodeContribution fs node = ([normStr (stripQuotes raw)], []) ∨
      nodeContribution fs node = ([], [normStr (stripQuotes raw)])) ∧
      normStr (stripQuotes raw) ≠ "" := by
  have hne : normStr (stripQuotes raw) ≠ "" := segsToStr_ne_empty _
  refine ⟨?_, hne⟩
  rcases extract_shape fs (stripQuotes raw) with he | he
  · left
    simp only [nodeContribution, h1, h2, Bool.false_eq_true, if_false, he]
    rw [if_neg hne]
    simp
  · right
    simp only [nodeContribution, h1, h2, Bool.false_eq_true, if_false, he]
    rw [if_neg hne]
    simp

/-- Witness for C1 at a concrete record and filesystem. -/
theorem c1_exactly_one_populated_witness :
    dictGet [("file", "\"/a/b\"")] "file" = some "\"/a/b\"" ∧
    pyStartsWith (stripQuotes "\"/a/b\"") joinMarker = false ∧
    ((nodeContribution ⟨[("/a", ["b"])]⟩ [("file", "\"/a/b\"")] =
        ([normStr (stripQuotes "\"/a/b\"")], []) ∨
      nodeContribution ⟨[("/a", ["b"])]⟩ [("file", "\"/a/b\"")] =
        ([], [normStr (stripQuotes "\"/a/b\"")])) ∧
      normStr (stripQuotes "\"/a/b\"") ≠ "") :=
  ⟨by decide, by decide,
    c1_exactly_one_populated ⟨[("/a", ["b"])]⟩ _ _ (by decide) (by decide)⟩

/-- C2: a Read-node `file` value whose quote-stripped form begins with the
expression-join marker is skipped entirely: removing that record from the
loop leaves the found and not-found outputs unchanged, so it appears in
neither list (and, filters acting listwise, in no filtered list either). -/
theorem c2_join_skip (fs : FS) (pre post : List (List (String × String)))
    (node : List (String × String)) (raw : String)
    (h1 : dictGet node "file" = some raw)
    (h2 : pyStartsWith (stripQuotes raw) joinMarker = true) :
    search_files_nodes fs (pre ++ node :: post) =
      search_files_nodes fs (pre ++ post) := by
  apply contribution_erase
  simp [nodeContribution, h1, h2]

/-- Witness for C2 on the spec's end-to-end example value. -/
theorem c2_join_skip_witness :
    dictGet [("file", "\"\\[join [value root.name] /plate.exr]\"")] "file" =
        some "\"\\[join [value root.name] /plate.exr]\"" ∧
    pyStartsWith (stripQuotes "\"\\[join [value root.name] /plate.exr]\"")
        joinMarker = true ∧
    search_files_nodes ⟨[("/a", ["b"])]⟩
        ([[("file", "\"/a/b\"")]] ++
          [("file", "\"\\[join [value root.name] /plate.exr]\"")] :: []) =
      search_files_nodes ⟨[("/a", ["b"])]⟩ ([[("file", "\"/a/b\"")]] ++ []) :=
  ⟨by decide, by decide,
    c2_join_skip ⟨[("/a", ["b"])]⟩ [[("file", "\"/a/b\"")]] []
      [("file", "\"\\[join [value root.name] /plate.exr]\"")]
      "\"\\[join [value root.name] /plate.exr]\"" (by decide) (by decide)⟩

/-- C3 (counterexample): the glob-derivation regex leaves its dot
unescaped, so the placeholder followed by `Xexr` is also collapsed to a
wildcard; on this input the code reports found while the claim's literal
`.exr` derivation would glob for the unreplaced name and report not found. -/
theorem c3_sequence_glob_counterexample :
    extract_file_path ⟨[("/a", ["bq"])]⟩ "/a/b%04dXexr" = ("/a/b%04dXexr", "") ∧
    claimSeqResolve ⟨[("/a", ["bq"])]⟩ (normSegs "/a/b%04dXexr") =
      ("", "/a/b%04dXexr") ∧
    (("/a/b%04dXexr", "") : String × String) ≠ ("", "/a/b%04dXexr") := by decide

/-- C3 (amended): for a path whose normalised form contains a frame
placeholder, the resolver derives the glob by replacing the placeholder
followed by any one character and the letters `exr` (in practice the
`.exr` extension) with a wildcard; it reports found — with the unresolved
pattern path, never a concrete frame — exactly when some entry of the
parent directory matches that glob, and not found otherwise. -/
theorem c3_sequence_resolution (fs : FS) (p : String)
    (h : hasPlaceholderStr (segsToStr (normSegs p)) = true) :
    ((∃ e ∈ (listdir fs (segsToStr (normSegs p).dropLast)).getD [],
        fnmatchStr (subPlaceholderExrStr (nameOf (normSegs p))) e = true) →
      extract_file_path fs p = (normStr p, "")) ∧
    ((∀ e ∈ (listdir fs (segsToStr (normSegs p).dropLast)).getD [],
        fnmatchStr (subPlaceholderExrStr (nameOf (normSegs p))) e = false) →
      extract_file_path fs p = ("", normStr p)) := by
  rw [extract_file_path_eq, if_pos h, handle_sequence_pattern_eq, normStr]
  constructor
  · rintro ⟨e, he, hm⟩
    rw [if_pos (sortStrs_ne_nil_of_mem (List.mem_filter.mpr ⟨he, hm⟩))]
  · intro hall
    have hnil : sortStrs (((listdir fs (segsToStr (normSegs p).dropLast)).getD []).filter
        (fun e => fnmatchStr (subPlaceholderExrStr (nameOf (normSegs p))) e)) = [] := by
      rw [sortStrs_eq_nil_iff, List.filter_eq_nil_iff]
      intro a ha
      simp [hall a ha]
    rw [if_neg (fun hne => hne hnil)]

/-- Witness for C3 (amended) on the spec's end-to-end sequence example. -/
theorem c3_sequence_resolution_witness :
    hasPlaceholderStr (segsToStr
        (normSegs "/mnt/proj/seq/shot01/render/beauty.%04d.exr")) = true ∧
    (∃ e ∈ (listdir ⟨[("/mnt/proj/seq/shot01/render",
          ["beauty.0001.exr", "beauty.0002.exr"])]⟩
        (segsToStr (normSegs "/mnt/proj/seq/shot01/render/beauty.%04d.exr").dropLast)).getD [],
      fnmatchStr (subPlaceholderExrStr
        (nameOf (normSegs "/mnt/proj/seq/shot01/render/beauty.%04d.exr"))) e = true) ∧
    extract_file_path ⟨[("/mnt/proj/seq/shot01/render",
        ["beauty.0001.exr", "beauty.0002.exr"])]⟩
        "/mnt/proj/seq/shot01/render/beauty.%04d.exr" =
      (normStr "/mnt/proj/seq/shot01/render/beauty.%04d.exr", "") :=
  ⟨by decide, by decide,
    (c3_sequence_resolution ⟨[("/mnt/proj/seq/shot01/render",
        ["beauty.0001.exr", "beauty.0002.exr"])]⟩
      "/mnt/proj/seq/shot01/render/beauty.%04d.exr" (by decide)).1 (by decide)⟩

/-- C4: a non-sequence reference resolves to found exactly when the
literal file name is among the parent directory's entries; a missing
parent directory resolves to not found, and resolution is a total
function (the missing-directory error is caught, never propagated). -/
theorem c4_non_sequence_resolution (fs : FS) (p : String)
    (h : hasPlaceholderStr (segsToStr (normSegs p)) = false) :
    (listdir fs (segsToStr (normSegs p).dropLast) = none →
      extract_file_path fs p = ("", normStr p)) ∧
    ∀ es, listdir fs (segsToStr (normSegs p).dropLast) = some es →
      ((nameOf (normSegs p) ∈ es → extract_file_path fs p = (normStr p, "")) ∧
        (nameOf (normSegs p) ∉ es → extract_file_path fs p = ("", normStr p))) := by
  have hbr : extract_file_path fs p = handle_non_sequence_pattern fs (normSegs p) := by
    rw [extract_file_path_eq, if_neg (by simp [h])]
  constructor
  · intro hnone
    rw [hbr, normStr]
    simp only [handle_non_sequence_pattern, hnone]
  · intro es hes
    constructor
    · intro hmem
      rw [hbr, normStr]
      simp only [handle_non_sequence_pattern, hes]
      rw [if_pos hmem]
    · intro hmem
      rw [hbr, normStr]
      simp only [handle_non_sequence_pattern, hes]
      rw [if_neg hmem]

/-- Witness for C4: found when the name is listed, not found when the
parent directory is absent. -/
theorem c4_non_sequence_resolution_witness :
    hasPlaceholderStr (segsToStr (normSegs "/a/b")) = false ∧
    listdir ⟨[("/a", ["b", "c"])]⟩ (segsToStr (normSegs "/a/b").dropLast) =
      some ["b", "c"] ∧
    nameOf (normSegs "/a/b") ∈ ["b", "c"] ∧
    extract_file_path ⟨[("/a", ["b", "c"])]⟩ "/a/b" = (normStr "/a/b", "") ∧
    listdir ⟨[]⟩ (segsToStr (normSegs "/q/r").dropLast) = none ∧
    extract_file_path ⟨[]⟩ "/q/r" = ("", normStr "/q/r") :=
  ⟨by decide, by decide, by decide,
    ((c4_non_sequence_resolution ⟨[("/a", ["b", "c"])]⟩ "/a/b" (by decide)).2
      ["b", "c"] (by decide)).1 (by decide),
    by decide,
    (c4_non_sequence_resolution ⟨[]⟩ "/q/r" (by decide)).1 (by decide)⟩

/-- C5 (counterexample): with no matching file, `get_first_file_in_sequence`
returns the wildcard-substituted pattern, not the original path unchanged:
the source rebinds `path` before globbing. -/
theorem c5_unresolved_return_counterexample :
    get_first_file_in_sequence ⟨[]⟩ "/x/%04d.exr" = "/x/*.exr" ∧
    ("/x/*.exr" : String) ≠ "/x/%04d.exr" := by decide

/-- C5 (amended): for a path containing a placeholder token, the
first-frame lookup substitutes the placeholder with a wildcard,
glob-expands, and returns the lexicographically smallest match; when
nothing matches it returns the wildcard-substituted pattern (not the
original path). -/
theorem c5_first_frame_lookup (fs : FS) (p : String)
    (h : hasPlaceholderStr p = true) :
    (globGlob fs (subPlaceholderStr p) = [] ∧
      get_first_file_in_sequence fs p = subPlaceholderStr p) ∨
    (get_first_file_in_sequence fs p ∈ globGlob fs (subPlaceholderStr p) ∧
      ∀ m ∈ globGlob fs (subPlaceholderStr p),
        strLe (get_first_file_in_sequence fs p) m = true) := by
  rw [get_first_file_in_sequence_eq, if_pos (gate_of_hasPlaceholder h)]
  cases hs : sortStrs (globGlob fs (subPlaceholderStr p)) with
  | nil => exact Or.inl ⟨sortStrs_eq_nil_iff.mp hs, rfl⟩
  | cons f t =>
      refine Or.inr ⟨?_, sortStrs_head_le hs⟩
      refine mem_sortStrs.mp ?_
      rw [hs]
      exact List.mem_cons_self f t

/-- Witness for C5 (amended): the lookup returns the first frame. -/
theorem c5_first_frame_lookup_witness :
    hasPlaceholderStr "/x/b.%04d.exr" = true ∧
    ((globGlob ⟨[("/", ["x"]), ("/x", ["b.0002.exr", "b.0001.exr"])]⟩
        (subPlaceholderStr "/x/b.%04d.exr") = [] ∧
      get_first_file_in_sequence ⟨[("/", ["x"]), ("/x", ["b.0002.exr", "b.0001.exr"])]⟩
          "/x/b.%04d.exr" = subPlaceholderStr "/x/b.%04d.exr") ∨
    (get_first_file_in_sequence ⟨[("/", ["x"]), ("/x", ["b.0002.exr", "b.0001.exr"])]⟩
          "/x/b.%04d.exr" ∈
        globGlob ⟨[("/", ["x"]), ("/x", ["b.0002.exr", "b.0001.exr"])]⟩
          (subPlaceholderStr "/x/b.%04d.exr") ∧
      ∀ m ∈ globGlob ⟨[("/", ["x"]), ("/x", ["b.0002.exr", "b.0001.exr"])]⟩
          (subPlaceholderStr "/x/b.%04d.exr"),
        strLe (get_first_file_in_sequence
          ⟨[("/", ["x"]), ("/x", ["b.0002.exr", "b.0001.exr"])]⟩ "/x/b.%04d.exr") m =
          true)) :=
  ⟨by decide,
    c5_first_frame_lookup ⟨[("/", ["x"]), ("/x", ["b.0002.exr", "b.0001.exr"])]⟩
      "/x/b.%04d.exr" (by decide)⟩

/-- C6 (counterexample): a node-body line with two spaces after the key is
split at the first space character only, so the stored value keeps the
second space; the claim's first-whitespace-run splitting would store the
value without it. -/
theorem c6_split_counterexample :
    find_node "Read \x7bfile  /a/b\x7d" "Read" = some [[("file", " /a/b")]] ∧
    splitFirstWsRun ("file  /a/b").data = some (("file").data, ("/a/b").data) ∧
    (" /a/b" : String) ≠ "/a/b" := by decide

/-- C6 (amended): for every well-formed document built from separator
texts (free of the node-opening letter), bodies free of closing braces,
and a trailing text, extraction returns one record per node occurrence in
source order; within a body each non-blank line is trimmed and split at
its first space character (the value keeping any further whitespace), and
on duplicate keys the last stored value wins. -/
theorem c6_node_extraction (pieces : List (List Char × List Char))
    (tail : List Char) (recs : List (List (String × String)))
    (hsep : ∀ pb ∈ pieces, 'R' ∉ pb.1) (htail : 'R' ∉ tail)
    (hbody : ∀ pb ∈ pieces, '\x7d' ∉ pb.2)
    (hparse : pieces.mapM (fun pb => parseBody pb.2) = some recs) :
    find_node (String.mk (buildDoc pieces tail)) "Read" = some recs ∧
      ∀ d k v, dictGet (dictInsert d k v) k = some v := by
  refine ⟨?_, dictGet_dictInsert⟩
  have hbodies : findBodies "Read" (String.mk (buildDoc pieces tail)) =
      pieces.map (fun pb => pb.2) :=
    findBodiesAux_buildDoc pieces tail hsep hbody htail
  rw [find_node, hbodies, mapM_map_comp]
  exact hparse

/-- Witness for C6 (amended): one Read node whose body declares `file`
twice; extraction returns a single record and the last value wins. -/
theorem c6_node_extraction_witness :
    (∀ pb ∈ [(['\n'], ("file a\nfile b").data)], 'R' ∉ pb.1) ∧
    ('R' ∉ ['\n']) ∧
    (∀ pb ∈ [(['\n'], ("file a\nfile b").data)], '\x7d' ∉ pb.2) ∧
    [(['\n'], ("file a\nfile b").data)].mapM (fun pb => parseBody pb.2) =
      some [[("file", "b")]] ∧
    find_node (String.mk (buildDoc [(['\n'], ("file a\nfile b").data)] ['\n']))
        "Read" = some [[("file", "b")]] :=
  ⟨by decide, by decide, by decide, by decide,
    (c6_node_extraction [(['\n'], ("file a\nfile b").data)] ['\n']
      [[("file", "b")]] (by decide) (by decide) (by decide) (by decide)).1⟩

/-- C7 (counterexample): the resolver strips every leading and trailing
quote, not a single pair: on a doubly quoted value the code resolves the
fully unquoted path, while stripping one pair as the claim states leaves a
quote in each end that the resolver would then treat as path characters. -/
theorem c7_strip_counterexample :
    nodeContribution ⟨[("/a", ["b"])]⟩ [("file", "\"\"/a/b\"\"")] =
      (["/a/b"], []) ∧
    stripOnePair "\"\"/a/b\"\"" = "\"/a/b\"" ∧
    normStr (stripOnePair "\"\"/a/b\"\"") = "/a/b\"" ∧
    ("/a/b" : String) ≠ "/a/b\"" := by decide

/-- C7 (amended): before the skip rule and normalisation the resolver
strips all enclosing quote characters — any number, including unpaired
ones: the raw value decomposes as quotes, then the stripped core (which
neither starts nor ends with a quote), then quotes, and the record
contributes exactly what a record carrying the stripped core would. -/
theorem c7_strip_behaviour (fs : FS) (node : List (String × String))
    (raw : String) (h : dictGet node "file" = some raw) :
    (∃ a b, raw.data = List.replicate a '"' ++ (stripQuotes raw).data ++
        List.replicate b '"') ∧
    (∀ c, (stripQuotes raw).data.head? = some c → c ≠ '"') ∧
    (∀ c, (stripQuotes raw).data.getLast? = some c → c ≠ '"') ∧
    nodeContribution fs node = nodeContribution fs [("file", stripQuotes raw)] := by
  refine ⟨stripCharEnds_decomp '"' raw.data, ?_, ?_, ?_⟩
  · intro c hc
    exact stripCharEnds_head hc
  · intro c hc
    exact stripCharEnds_getLast hc
  · have hget : dictGet [("file", stripQuotes raw)] "file" = some (stripQuotes raw) := by
      simp [dictGet, List.find?]
    have hidem : stripQuotes (stripQuotes raw) = stripQuotes raw := by
      show String.mk (stripCharEnds '"' (stripCharEnds '"' raw.data)) =
        String.mk (stripCharEnds '"' raw.data)
      rw [stripCharEnds_idem]
    simp only [nodeContribution, h, hget, hidem]

/-- Witness for C7 (amended) at a concrete doubly quoted value. -/
theorem c7_strip_behaviour_witness :
    dictGet [("file", "\"\"/a/b\"\"")] "file" = some "\"\"/a/b\"\"" ∧
    (∃ a b, ("\"\"/a/b\"\"" : String).data =
        List.replicate a '"' ++ (stripQuotes "\"\"/a/b\"\"").data ++
          List.replicate b '"') ∧
    nodeContribution ⟨[("/a", ["b"])]⟩ [("file", "\"\"/a/b\"\"")] =
      nodeContribution ⟨[("/a", ["b"])]⟩ [("file", stripQuotes "\"\"/a/b\"\"")] :=
  ⟨by decide,
    (c7_strip_behaviour ⟨[("/a", ["b"])]⟩ [("file", "\"\"/a/b\"\"")]
      "\"\"/a/b\"\"" (by decide)).1,
    (c7_strip_behaviour ⟨[("/a", ["b"])]⟩ [("file", "\"\"/a/b\"\"")]
      "\"\"/a/b\"\"" (by decide)).2.2.2⟩

/-- C8: a node-body line that is non-blank after trimming but contains no
separating space makes extraction of the whole document fail with a
surfaced error (the unpacking `ValueError`, modelled as `none`) instead of
silently dropping the line. -/
theorem c8_malformed_line_fails (text : String) (body l : List Char)
    (hb : body ∈ findBodies "Read" text)
    (hl : l ∈ splitOnChar '\n' body)
    (h1 : pyStripChars l ≠ [])
    (h2 : ' ' ∉ pyStripChars l) :
    find_node text "Read" = none :=
  mapM_eq_none_of_mem (foldlM_parseProp_none h1 h2 (splitOnChar '\n' body) [] hl) hb

/-- Witness for C8 on a document whose Read body holds the malformed line
`filex`. -/
theorem c8_malformed_line_fails_witness :
    ("\nfilex\n").data ∈ findBodies "Read" "Read \x7b\nfilex\n\x7d" ∧
    ("filex").data ∈ splitOnChar '\n' ("\nfilex\n").data ∧
    pyStripChars ("filex").data ≠ [] ∧
    ' ' ∉ pyStripChars ("filex").data ∧
    find_node "Read \x7b\nfilex\n\x7d" "Read" = none :=
  ⟨by decide, by decide, by decide, by decide,
    c8_malformed_line_fails "Read \x7b\nfilex\n\x7d" ("\nfilex\n").data
      ("filex").data (by decide) (by decide) (by decide) (by decide)⟩

/-- C9: the substring filter splits the filter string on `/` and keeps, on
the found list and on the not-found list alike, exactly the entries that
contain every token as a substring — AND semantics, independent of token
order since all tokens must occur. -/
theorem c9_substring_filter (c : String) (found notFound : List String)
    (p : String) :
    (p ∈ (filter_token (some c) found notFound).1 ↔
      p ∈ found ∧ ∀ t ∈ tokensOf c, substrOccurs t.data p.data = true) ∧
    (p ∈ (filter_token (some c) found notFound).2 ↔
      p ∈ notFound ∧ ∀ t ∈ tokensOf c, substrOccurs t.data p.data = true) := by
  by_cases hc : c = ""
  · subst hc
    have htok : ∀ t ∈ tokensOf "", substrOccurs t.data p.data = true := by
      intro t ht
      have he : tokensOf "" = [""] := rfl
      rw [he] at ht
      simp at ht
      subst ht
      exact substrOccurs_nil _
    simp only [filter_token, if_pos rfl]
    exact ⟨⟨fun hp => ⟨hp, htok⟩, fun hp => hp.1⟩,
      ⟨fun hp => ⟨hp, htok⟩, fun hp => hp.1⟩⟩
  · simp only [filter_token, if_neg hc]
    constructor
    · rw [List.mem_filter, List.all_eq_true]
    · rw [List.mem_filter, List.all_eq_true]

/-- Witness for C9 on the spec's example: `v003` passes, `v002` is
filtered out of the found list. -/
theorem c9_substring_filter_witness :
    (("/proj/shots/010/v003/comp.%04d.exr" : String) ∈
        (filter_token (some "shots/v003")
          ["/proj/shots/010/v003/comp.%04d.exr", "/proj/shots/010/v002/comp.%04d.exr"]
          []).1 ↔
      ("/proj/shots/010/v003/comp.%04d.exr" : String) ∈
          ["/proj/shots/010/v003/comp.%04d.exr", "/proj/shots/010/v002/comp.%04d.exr"] ∧
        ∀ t ∈ tokensOf "shots/v003",
          substrOccurs t.data ("/proj/shots/010/v003/comp.%04d.exr" : String).data = true) ∧
    (("/proj/shots/010/v003/comp.%04d.exr" : String) ∈
        (filter_token (some "shots/v003")
          ["/proj/shots/010/v003/comp.%04d.exr", "/proj/shots/010/v002/comp.%04d.exr"]
          []).2 ↔
      ("/proj/shots/010/v003/comp.%04d.exr" : String) ∈ ([] : List String) ∧
        ∀ t ∈ tokensOf "shots/v003",
          substrOccurs t.data ("/proj/shots/010/v003/comp.%04d.exr" : String).data = true) :=
  c9_substring_filter "shots/v003"
    ["/proj/shots/010/v003/comp.%04d.exr", "/proj/shots/010/v002/comp.%04d.exr"] []
    "/proj/shots/010/v003/comp.%04d.exr"

/-- C10: an extracted Read-node record with no `file` attribute
contributes nothing to either output: removing it from the loop leaves
the found and not-found lists unchanged, with no error raised. -/
theorem c10_no_file_attribute (fs : FS) (pre post : List (List (String × String)))
    (node : List (String × String)) (h : dictGet node "file" = none) :
    search_files_nodes fs (pre ++ node :: post) =
      search_files_nodes fs (pre ++ post) := by
  apply contribution_erase
  simp [nodeContribution, h]

/-- Witness for C10 with a record carrying only an `xpos` attribute. -/
theorem c10_no_file_attribute_witness :
    dictGet [("xpos", "12")] "xpos" = some "12" ∧
    dictGet [("xpos", "12")] "file" = none ∧
    search_files_nodes ⟨[]⟩ ([] ++ [("xpos", "12")] :: [[("file", "\"/q/r\"")]]) =
      search_files_nodes ⟨[]⟩ ([] ++ [[("file", "\"/q/r\"")]]) :=
  ⟨by decide, by decide,
    c10_no_file_attribute ⟨[]⟩ [] [[("file", "\"/q/r\"")]] [("xpos", "12")]
      (by decide)⟩

end Nukeglob
